import Mathlib

/-!
Verification of the `openapi-authz` policy resolver and serializer.

The Go sources under `internal/parser/parser.go` and `internal/model`
are embedded shallowly:

* Go nil-able slices (`[]securityRequirement`) become `Option (List _)`,
  with `none` standing for the Go `nil` slice and `some []` for an
  explicit empty slice, since the code distinguishes the two.
* Go maps (`map[string][]string`, `map[string]*pathItem`,
  `map[RouteKey]AuthPolicy`) become association lists; where a claim
  depends on key uniqueness that Go maps guarantee, the theorem takes a
  `Nodup` hypothesis on the keys.
* Fallible Go functions returning `(T, error)` become `Except String T`.
-/

namespace OpenapiAuthz

/-- `model.RouteKey`: uniquely identifies an operation by HTTP method and path. -/
structure RouteKey where
  Method : String
  Path : String
deriving DecidableEq, Repr

/-- `model.AuthPolicy`: the authorization requirements for a single operation. -/
structure AuthPolicy where
  RequireAuth : Bool
  Roles : List String
  Scopes : List String
deriving DecidableEq, Repr

/-- `model.Config`: all auth policies derived from a specification.  The Go
`map[RouteKey]AuthPolicy` is embedded as an association list. -/
structure Config where
  Policies : List (RouteKey × AuthPolicy)
deriving DecidableEq, Repr

/-- `parser.securityRequirement`: `map[string][]string`, a mapping from scheme
name to a list of requirement strings, embedded as an association list. -/
abbrev securityRequirement : Type := List (String × List String)

/-- `parser.operation`: an operation carrying an optional `security` list
(`nil` slice = `none`, explicit empty slice = `some []`). -/
structure operation where
  Security : Option (List securityRequirement)
deriving DecidableEq

/-- `parser.pathItem`: the seven method slots consulted by the parser; a Go
nil pointer becomes `none`. -/
structure pathItem where
  Get : Option operation
  Post : Option operation
  Put : Option operation
  Delete : Option operation
  Patch : Option operation
  Options : Option operation
  Head : Option operation
deriving DecidableEq

/-- `parser.openapiRoot`: global security plus per-path operations.  The Go
`Paths map[string]*pathItem` is embedded as an association list. -/
structure openapiRoot where
  Security : Option (List securityRequirement)
  Paths : List (String × Option pathItem)
deriving DecidableEq

/-- `(*pathItem).Operations`: the present (non-nil) operations keyed by
uppercase HTTP method.  The Go version returns a map; the embedding returns
the same entries as a list in field order. -/
def pathItem.Operations (p : pathItem) : List (String × operation) :=
  (match p.Get with | some o => [("GET", o)] | none => []) ++
  (match p.Post with | some o => [("POST", o)] | none => []) ++
  (match p.Put with | some o => [("PUT", o)] | none => []) ++
  (match p.Delete with | some o => [("DELETE", o)] | none => []) ++
  (match p.Patch with | some o => [("PATCH", o)] | none => []) ++
  (match p.Options with | some o => [("OPTIONS", o)] | none => []) ++
  (match p.Head with | some o => [("HEAD", o)] | none => [])

/-- The test `len(s) > 5 && s[:5] == "role:"` from `derivePolicy`'s token
loop.  Go measures bytes; since the compared prefix `"role:"` is ASCII the
byte-level test coincides with this character-level one. -/
def isRoleToken (s : String) : Bool :=
  decide (5 < s.length) && decide (s.take 5 = "role:")

/-- The body of `derivePolicy`'s token loop: split a token list into
`(roles, scopes)`, stripping the `role:` prefix from role tokens, appending
in order exactly as the Go loop does. -/
def classifyTokens (toks : List String) : List String × List String :=
  toks.foldl
    (fun acc s =>
      if isRoleToken s then (acc.1 ++ [s.drop 5], acc.2) else (acc.1, acc.2 ++ [s]))
    ([], [])

/-- Lookup of a scheme name inside one security requirement object (the Go
`for scheme, scopes := range req` with `scheme == "BearerAuth"`; a Go map has
unique keys, so taking the first match in the association list is faithful). -/
def lookupScheme (name : String) : securityRequirement → Option (List String)
  | [] => none
  | (n, toks) :: rest => if n = name then some toks else lookupScheme name rest

/-- The outer requirement-object scan of `derivePolicy`: the token list of the
first requirement object containing the `BearerAuth` scheme, if any. -/
def findBearer : List securityRequirement → Option (List String)
  | [] => none
  | req :: rest =>
    match lookupScheme "BearerAuth" req with
    | some toks => some toks
    | none => findBearer rest

/-- The policy `model.AuthPolicy{RequireAuth: false}` (zero-valued lists). -/
def publicPolicy : AuthPolicy := { RequireAuth := false, Roles := [], Scopes := [] }

/-- The error message of `derivePolicy`'s fall-through. -/
def noBearerMsg : String := "security section present but no BearerAuth requirement found"

/-- The first two lines of `derivePolicy`: `sec := op.Security; if sec == nil
then sec = root.Security`. -/
def effectiveSec (root : openapiRoot) (op : operation) :
    Option (List securityRequirement) :=
  match op.Security with
  | some s => some s
  | none => root.Security

/-- `parser.derivePolicy`: operation-level security overrides root-level when
present; empty or absent security is public; otherwise the first `BearerAuth`
occurrence fixes the policy, and its absence is an error. -/
def derivePolicy (root : openapiRoot) (op : operation) : Except String AuthPolicy :=
  match effectiveSec root op with
  | some [] => .ok publicPolicy
  | none => .ok publicPolicy
  | some (req :: rest) =>
    match findBearer (req :: rest) with
    | some toks =>
      .ok { RequireAuth := true
            Roles := (classifyTokens toks).1
            Scopes := (classifyTokens toks).2 }
    | none => .error noBearerMsg

/-- The error annotation `fmt.Errorf("derive policy for %s %s: %w", ...)`. -/
def deriveErrMsg (method rawPath err : String) : String :=
  "derive policy for " ++ method ++ " " ++ rawPath ++ ": " ++ err

/-- The inner loop of `ParseConfig`: derive a policy for each operation of one
path, failing with the annotated error as soon as one derivation fails. -/
def parseOps (root : openapiRoot) (rawPath : String) :
    List (String × operation) → Except String (List (RouteKey × AuthPolicy))
  | [] => .ok []
  | (method, op) :: rest =>
    match derivePolicy root op with
    | .error e => .error (deriveErrMsg method rawPath e)
    | .ok policy =>
      match parseOps root rawPath rest with
      | .error e => .error e
      | .ok there => .ok ((⟨method, rawPath⟩, policy) :: there)

/-- The outer loop of `ParseConfig` over `root.Paths`, skipping nil path
items. -/
def parsePaths (root : openapiRoot) :
    List (String × Option pathItem) → Except String (List (RouteKey × AuthPolicy))
  | [] => .ok []
  | (_, none) :: rest => parsePaths root rest
  | (rawPath, some item) :: rest =>
    match parseOps root rawPath item.Operations with
    | .error e => .error e
    | .ok here =>
      match parsePaths root rest with
      | .error e => .error e
      | .ok there => .ok (here ++ there)

/-- `parser.ParseConfig`, from the already-unmarshalled document: build the
`RouteKey -> AuthPolicy` mapping, or fail on the first derivation error. -/
def ParseConfig (root : openapiRoot) : Except String Config :=
  match parsePaths root root.Paths with
  | .error e => .error e
  | .ok ps => .ok { Policies := ps }

/-- The declared operation keys contributed by a list of path entries: one
`(uppercase method, path)` key per non-nil operation under a non-nil path
item. -/
def declaredKeysOf : List (String × Option pathItem) → List RouteKey
  | [] => []
  | (_, none) :: rest => declaredKeysOf rest
  | (rawPath, some item) :: rest =>
    item.Operations.map (fun mo => ⟨mo.1, rawPath⟩) ++ declaredKeysOf rest

/-- The declared operations of a document. -/
def declaredKeys (root : openapiRoot) : List RouteKey :=
  declaredKeysOf root.Paths

/-- `opAt root method path op`: the document declares operation `op` under
`path` and uppercase `method`. -/
@[reducible] def opAt (root : openapiRoot) (method path : String) (op : operation) : Prop :=
  ∃ item, (path, some item) ∈ root.Paths ∧ (method, op) ∈ item.Operations

/-! ### Serializer

The generator's source file (`internal/generator/generator.go`) is not among
the provided sources; only its golden-file test is.  The definitions below
are therefore modelled from the spec (section 4.2) rather than translated
from code. -/

/-- Modelled from the spec: escaping of one character for embedding in a
source-code string literal (`generator.go` is missing from the sources). -/
def escapeChar (c : Char) : String :=
  if c = '\\' then "\\\\" else if c = '"' then "\\\"" else String.singleton c

/-- Modelled from the spec: string values escaped for safe embedding as
source-code literals (`generator.go` is missing from the sources). -/
def goQuote (s : String) : String :=
  "\"" ++ String.join (s.toList.map escapeChar) ++ "\""

/-- Modelled from the spec: a structurally valid code identifier — nonempty,
leading letter or underscore, then letters, digits or underscores
(`generator.go` is missing from the sources). -/
def validIdent (s : String) : Bool :=
  match s.toList with
  | [] => false
  | c :: cs => (c.isAlpha || c = '_') && cs.all (fun d => d.isAlphanum || d = '_')

/-- Modelled from the spec: the total order over `RouteKey` used for emitted
entries — method, then path, lexicographic. -/
def keyLE (a b : RouteKey) : Prop :=
  a.Method < b.Method ∨ (a.Method = b.Method ∧ a.Path ≤ b.Path)

instance : DecidableRel keyLE := fun a b => by
  unfold keyLE
  infer_instance

instance : IsTrans RouteKey keyLE where
  trans a b c hab hbc := by
    rcases hab with h₁ | ⟨h₁, h₁p⟩ <;> rcases hbc with h₂ | ⟨h₂, h₂p⟩
    · exact Or.inl (lt_trans h₁ h₂)
    · exact Or.inl (h₂ ▸ h₁)
    · exact Or.inl (h₁ ▸ h₂)
    · exact Or.inr ⟨h₁.trans h₂, le_trans h₁p h₂p⟩

instance : IsAntisymm RouteKey keyLE where
  antisymm a b hab hba := by
    rcases hab with h₁ | ⟨h₁, h₁p⟩ <;> rcases hba with h₂ | ⟨h₂, h₂p⟩
    · exact absurd (lt_trans h₁ h₂) (lt_irrefl _)
    · exact absurd h₁ (h₂ ▸ lt_irrefl _)
    · exact absurd h₂ (h₁ ▸ lt_irrefl _)
    · cases a
      cases b
      simp only [RouteKey.mk.injEq]
      exact ⟨h₁, le_antisymm h₁p h₂p⟩

instance : IsTotal RouteKey keyLE where
  total a b := by
    rcases lt_trichotomy a.Method b.Method with h | h | h
    · exact Or.inl (Or.inl h)
    · rcases le_total a.Path b.Path with hp | hp
      · exact Or.inl (Or.inr ⟨h, hp⟩)
      · exact Or.inr (Or.inr ⟨h.symm, hp⟩)
    · exact Or.inr (Or.inl h)

/-- Modelled from the spec: the keys of the mapping, sorted by `keyLE`
before emission. -/
def sortedKeys (ps : List (RouteKey × AuthPolicy)) : List RouteKey :=
  List.insertionSort keyLE (ps.map Prod.fst)

/-- Association-list lookup mirroring the read `m[k]` of the policy map. -/
def lookupKey (k : RouteKey) : List (RouteKey × AuthPolicy) → Option AuthPolicy
  | [] => none
  | (k', v) :: rest => if k' = k then some v else lookupKey k rest

/-- Modelled from the spec: rendering of a non-empty string list as a Go
slice literal. -/
def renderStringList (ss : List String) : String :=
  "[]string\x7b" ++ String.intercalate ", " (ss.map goQuote) ++ "\x7d"

/-- Modelled from the spec: one `AuthPolicy` literal; `roles`/`scopes`
render only when non-empty. -/
def renderPolicy (p : AuthPolicy) : String :=
  "\x7bRequireAuth: " ++ (if p.RequireAuth then "true" else "false") ++
  (if p.Roles = [] then "" else ", Roles: " ++ renderStringList p.Roles) ++
  (if p.Scopes = [] then "" else ", Scopes: " ++ renderStringList p.Scopes) ++
  "\x7d"

/-- Modelled from the spec: one emitted mapping entry. -/
def renderEntry (k : RouteKey) (p : AuthPolicy) : String :=
  "\t\x7bMethod: " ++ goQuote k.Method ++ ", Path: " ++ goQuote k.Path ++
  "\x7d: " ++ renderPolicy p ++ ",\n"

/-- Modelled from the spec: the fixed text preceding the mapping entries —
the two record type declarations and the mapping binding under the given
namespace identifier. -/
def headerText (pkg : String) : String :=
  "package " ++ pkg ++ "\n\n" ++
  "type RouteKey struct \x7b\n\tMethod string\n\tPath string\n\x7d\n\n" ++
  "type AuthPolicy struct \x7b\n\tRequireAuth bool\n\tRoles []string\n\tScopes []string\n\x7d\n\n" ++
  "var Policies = map[RouteKey]AuthPolicy\x7b\n"

/-- Modelled from the spec: the text closing the mapping literal. -/
def footerText : String := "\x7d\n"

/-- Modelled from the spec: `generator.Generate` (its source file
`internal/generator/generator.go` is missing from the sources; only its
golden test is present).  Given a namespace identifier and a `Config`,
reject an invalid identifier, otherwise emit the two type declarations and
the mapping literal with entries sorted by `keyLE` over the keys. -/
def Generate (pkg : String) (cfg : Config) : Except String String :=
  if validIdent pkg then
    .ok (headerText pkg ++
      String.join ((sortedKeys cfg.Policies).map
        (fun k => renderEntry k ((lookupKey k cfg.Policies).getD publicPolicy))) ++
      footerText)
  else
    .error "invalid package identifier"

/-! ### Token classification lemmas -/

theorem classifyTokens_go (toks : List String) (r s : List String) :
    toks.foldl
      (fun acc t =>
        if isRoleToken t then (acc.1 ++ [t.drop 5], acc.2) else (acc.1, acc.2 ++ [t]))
      (r, s) =
    (r ++ toks.filterMap (fun t => if isRoleToken t then some (t.drop 5) else none),
     s ++ toks.filter (fun t => ! isRoleToken t)) := by
  induction toks generalizing r s with
  | nil => simp
  | cons t ts ih =>
    cases h : isRoleToken t with
    | true => simp [List.foldl_cons, h, ih, List.filterMap_cons, List.filter_cons]
    | false => simp [List.foldl_cons, h, ih, List.filterMap_cons, List.filter_cons]

theorem classifyTokens_eq (toks : List String) :
    classifyTokens toks =
      (toks.filterMap (fun t => if isRoleToken t then some (t.drop 5) else none),
       toks.filter (fun t => ! isRoleToken t)) := by
  simpa [classifyTokens] using classifyTokens_go toks [] []

/-! ### derivePolicy lemmas -/

theorem derivePolicy_public_of_not_required {root : openapiRoot} {op : operation}
    {pol : AuthPolicy} (h : derivePolicy root op = .ok pol)
    (hf : pol.RequireAuth = false) :
    pol.Roles = [] ∧ pol.Scopes = [] := by
  unfold derivePolicy at h
  split at h
  · cases h
    exact ⟨rfl, rfl⟩
  · cases h
    exact ⟨rfl, rfl⟩
  · split at h
    · cases h
      simp at hf
    · cases h

theorem lookupScheme_eq_none_iff (name : String) (req : securityRequirement) :
    lookupScheme name req = none ↔ ∀ pr ∈ req, pr.1 ≠ name := by
  induction req with
  | nil => simp [lookupScheme]
  | cons pr rest ih =>
    cases pr with
    | mk n toks =>
      by_cases hn : n = name
      · simp [lookupScheme, hn]
      · simp [lookupScheme, hn, ih]

theorem findBearer_cons_none {req : securityRequirement}
    (h : lookupScheme "BearerAuth" req = none) (rest : List securityRequirement) :
    findBearer (req :: rest) = findBearer rest := by
  simp [findBearer, h]

theorem findBearer_append_none {pre : List securityRequirement}
    (h : ∀ r ∈ pre, lookupScheme "BearerAuth" r = none)
    (rest : List securityRequirement) :
    findBearer (pre ++ rest) = findBearer rest := by
  induction pre with
  | nil => simp
  | cons r rs ih =>
    rw [List.cons_append, findBearer_cons_none (h r (by simp)),
      ih (fun r hr => h r (by simp [hr]))]

theorem lookupScheme_first (name : String) (toks : List String)
    (rpre rpost : List (String × List String))
    (h : ∀ pr ∈ rpre, pr.1 ≠ name) :
    lookupScheme name (rpre ++ (name, toks) :: rpost) = some toks := by
  induction rpre with
  | nil => simp [lookupScheme]
  | cons pr rest ih =>
    obtain ⟨n, t⟩ := pr
    rw [List.cons_append]
    show (if n = name then some t
      else lookupScheme name (rest ++ (name, toks) :: rpost)) = some toks
    rw [if_neg (h (n, t) (by simp)), ih (fun q hq => h q (by simp [hq]))]

theorem derivePolicy_cons {root : openapiRoot} {op : operation}
    {req : securityRequirement} {rest : List securityRequirement}
    (hsec : effectiveSec root op = some (req :: rest)) :
    derivePolicy root op =
      match findBearer (req :: rest) with
      | some toks =>
        .ok ⟨true, (classifyTokens toks).1, (classifyTokens toks).2⟩
      | none => .error noBearerMsg := by
  unfold derivePolicy
  rw [hsec]

theorem findBearer_eq_none_iff (l : List securityRequirement) :
    findBearer l = none ↔ ∀ req ∈ l, ∀ pr ∈ req, pr.1 ≠ "BearerAuth" := by
  induction l with
  | nil => simp [findBearer]
  | cons req rest ih =>
    cases hl : lookupScheme "BearerAuth" req with
    | some toks =>
      simp only [findBearer, hl]
      constructor
      · intro h
        cases h
      · intro h
        have := (lookupScheme_eq_none_iff "BearerAuth" req).mpr (h req (by simp))
        rw [this] at hl
        cases hl
    | none =>
      simp only [findBearer, hl, ih]
      constructor
      · intro h req' hreq'
        rcases List.mem_cons.mp hreq' with rfl | hmem
        · exact (lookupScheme_eq_none_iff "BearerAuth" req').mp hl
        · exact h req' hmem
      · intro h req' hreq'
        exact h req' (by simp [hreq'])

/-! ### ParseConfig lemmas -/

theorem parseOps_ok_keys {root : openapiRoot} {rawPath : String}
    {ops : List (String × operation)} {l : List (RouteKey × AuthPolicy)}
    (h : parseOps root rawPath ops = .ok l) :
    l.map Prod.fst = ops.map (fun mo => (⟨mo.1, rawPath⟩ : RouteKey)) := by
  induction ops generalizing l with
  | nil =>
    cases h
    simp
  | cons mo rest ih =>
    unfold parseOps at h
    split at h
    · cases h
    · split at h
      · cases h
      · cases h
        simp [ih (by assumption)]

theorem parseOps_mem_policy {root : openapiRoot} {rawPath : String}
    {ops : List (String × operation)} {l : List (RouteKey × AuthPolicy)}
    (h : parseOps root rawPath ops = .ok l) {k : RouteKey} {pol : AuthPolicy}
    (hm : (k, pol) ∈ l) : ∃ op, derivePolicy root op = .ok pol := by
  induction ops generalizing l with
  | nil =>
    cases h
    cases hm
  | cons mo rest ih =>
    unfold parseOps at h
    split at h
    · cases h
    · split at h
      · cases h
      · cases h
        rcases List.mem_cons.mp hm with heq | hmem
        · cases heq
          exact ⟨mo.2, by assumption⟩
        · exact ih (by assumption) hmem

theorem parseOps_ok_of_mem {root : openapiRoot} {rawPath : String}
    {ops : List (String × operation)} {l : List (RouteKey × AuthPolicy)}
    (h : parseOps root rawPath ops = .ok l) {method : String} {op : operation}
    (hmo : (method, op) ∈ ops) :
    ∃ pol, derivePolicy root op = .ok pol ∧
      ((⟨method, rawPath⟩ : RouteKey), pol) ∈ l := by
  induction ops generalizing l with
  | nil => cases hmo
  | cons mo rest ih =>
    unfold parseOps at h
    split at h
    · cases h
    · split at h
      · cases h
      · cases h
        rcases List.mem_cons.mp hmo with heq | hmem
        · cases heq
          exact ⟨_, by assumption, by simp⟩
        · rcases ih (by assumption) hmem with ⟨pol, hpol, hin⟩
          exact ⟨pol, hpol, by simp [hin]⟩

theorem parseOps_cases (root : openapiRoot) (rawPath : String)
    (ops : List (String × operation)) :
    (∃ l, parseOps root rawPath ops = .ok l) ∨
    (∃ method op e, (method, op) ∈ ops ∧ derivePolicy root op = .error e ∧
      parseOps root rawPath ops = .error (deriveErrMsg method rawPath e)) := by
  induction ops with
  | nil => exact Or.inl ⟨[], rfl⟩
  | cons mo rest ih =>
    cases hd : derivePolicy root mo.2 with
    | error e =>
      refine Or.inr ⟨mo.1, mo.2, e, by simp, hd, ?_⟩
      unfold parseOps
      rw [hd]
    | ok pol =>
      rcases ih with ⟨l, hl⟩ | ⟨method, op, e, hmem, herr, hrun⟩
      · refine Or.inl ⟨(⟨mo.1, rawPath⟩, pol) :: l, ?_⟩
        unfold parseOps
        rw [hd, hl]
      · refine Or.inr ⟨method, op, e, by simp [hmem], herr, ?_⟩
        unfold parseOps
        rw [hd, hrun]

theorem parsePaths_ok_keys {root : openapiRoot}
    {ps : List (String × Option pathItem)} {l : List (RouteKey × AuthPolicy)}
    (h : parsePaths root ps = .ok l) :
    l.map Prod.fst = declaredKeysOf ps := by
  induction ps generalizing l with
  | nil =>
    cases h
    simp [declaredKeysOf]
  | cons pi rest ih =>
    cases pi with
    | mk rawPath item? =>
      cases item? with
      | none =>
        unfold parsePaths at h
        simpa [declaredKeysOf] using ih h
      | some item =>
        unfold parsePaths at h
        split at h
        · cases h
        · split at h
          · cases h
          · cases h
            simp [declaredKeysOf, parseOps_ok_keys (by assumption),
              ih (by assumption)]

theorem parsePaths_mem_policy {root : openapiRoot}
    {ps : List (String × Option pathItem)} {l : List (RouteKey × AuthPolicy)}
    (h : parsePaths root ps = .ok l) {k : RouteKey} {pol : AuthPolicy}
    (hm : (k, pol) ∈ l) : ∃ op, derivePolicy root op = .ok pol := by
  induction ps generalizing l with
  | nil =>
    cases h
    cases hm
  | cons pi rest ih =>
    cases pi with
    | mk rawPath item? =>
      cases item? with
      | none =>
        unfold parsePaths at h
        exact ih h hm
      | some item =>
        unfold parsePaths at h
        split at h
        · cases h
        · split at h
          · cases h
          · cases h
            rcases List.mem_append.mp hm with hmem | hmem
            · exact parseOps_mem_policy (by assumption) hmem
            · exact ih (by assumption) hmem

theorem parsePaths_ok_of_opAt {root : openapiRoot}
    {ps : List (String × Option pathItem)} {l : List (RouteKey × AuthPolicy)}
    (h : parsePaths root ps = .ok l) {path : String} {item : pathItem}
    {method : String} {op : operation} (hp : (path, some item) ∈ ps)
    (hop : (method, op) ∈ item.Operations) :
    ∃ pol, derivePolicy root op = .ok pol ∧
      ((⟨method, path⟩ : RouteKey), pol) ∈ l := by
  induction ps generalizing l with
  | nil => cases hp
  | cons pi rest ih =>
    cases pi with
    | mk rawPath item? =>
      cases item? with
      | none =>
        unfold parsePaths at h
        rcases List.mem_cons.mp hp with heq | hmem
        · cases heq
        · exact ih h hmem
      | some item' =>
        unfold parsePaths at h
        split at h
        · cases h
        · split at h
          · cases h
          · cases h
            rcases List.mem_cons.mp hp with heq | hmem
            · cases heq
              rcases parseOps_ok_of_mem (by assumption) hop with ⟨pol, hpol, hin⟩
              exact ⟨pol, hpol, by simp [hin]⟩
            · rcases ih (by assumption) hmem with ⟨pol, hpol, hin⟩
              exact ⟨pol, hpol, by simp [hin]⟩

theorem parsePaths_cases (root : openapiRoot)
    (ps : List (String × Option pathItem)) :
    (∃ l, parsePaths root ps = .ok l) ∨
    (∃ path item method op e, (path, some item) ∈ ps ∧
      (method, op) ∈ item.Operations ∧ derivePolicy root op = .error e ∧
      parsePaths root ps = .error (deriveErrMsg method path e)) := by
  induction ps with
  | nil => exact Or.inl ⟨[], rfl⟩
  | cons pi rest ih =>
    cases pi with
    | mk rawPath item? =>
      cases item? with
      | none =>
        rcases ih with ⟨l, hl⟩ | ⟨path, item, method, op, e, hp, hop, herr, hrun⟩
        · exact Or.inl ⟨l, by unfold parsePaths; exact hl⟩
        · exact Or.inr ⟨path, item, method, op, e, by simp [hp], hop, herr,
            by unfold parsePaths; exact hrun⟩
      | some item =>
        rcases parseOps_cases root rawPath item.Operations with
          ⟨here, hhere⟩ | ⟨method, op, e, hmem, herr, hrun⟩
        · rcases ih with ⟨l, hl⟩ | ⟨path, item', method, op, e, hp, hop, herr, hrun⟩
          · refine Or.inl ⟨here ++ l, ?_⟩
            unfold parsePaths
            rw [hhere, hl]
          · refine Or.inr ⟨path, item', method, op, e, by simp [hp], hop, herr, ?_⟩
            unfold parsePaths
            rw [hhere, hrun]
        · refine Or.inr ⟨rawPath, item, method, op, e, by simp, hmem, herr, ?_⟩
          unfold parsePaths
          rw [hrun]

/-! ### Declared-key lemmas -/

theorem slot_fst_sublist (o : Option operation) (m : String) :
    ((match o with | some x => [(m, x)] | none => []).map Prod.fst).Sublist [m] := by
  cases o <;> simp

theorem Operations_fst_sublist (p : pathItem) :
    (p.Operations.map Prod.fst).Sublist
      ["GET", "POST", "PUT", "DELETE", "PATCH", "OPTIONS", "HEAD"] := by
  unfold pathItem.Operations
  simp only [List.map_append]
  exact ((((((slot_fst_sublist p.Get "GET").append
    (slot_fst_sublist p.Post "POST")).append
    (slot_fst_sublist p.Put "PUT")).append
    (slot_fst_sublist p.Delete "DELETE")).append
    (slot_fst_sublist p.Patch "PATCH")).append
    (slot_fst_sublist p.Options "OPTIONS")).append
    (slot_fst_sublist p.Head "HEAD")

theorem Operations_fst_nodup (p : pathItem) :
    (p.Operations.map Prod.fst).Nodup :=
  (by decide : (["GET", "POST", "PUT", "DELETE", "PATCH", "OPTIONS", "HEAD"] :
    List String).Nodup).sublist (Operations_fst_sublist p)

theorem mem_declaredKeysOf_path {ps : List (String × Option pathItem)}
    {k : RouteKey} (h : k ∈ declaredKeysOf ps) : k.Path ∈ ps.map Prod.fst := by
  induction ps with
  | nil => cases h
  | cons pi rest ih =>
    cases pi with
    | mk rawPath item? =>
      cases item? with
      | none => simpa using Or.inr (ih h)
      | some item =>
        rcases List.mem_append.mp h with hmem | hmem
        · rcases List.mem_map.mp hmem with ⟨mo, _, rfl⟩
          simp
        · simpa using Or.inr (ih hmem)

theorem declaredKeysOf_nodup {ps : List (String × Option pathItem)}
    (h : (ps.map Prod.fst).Nodup) : (declaredKeysOf ps).Nodup := by
  induction ps with
  | nil => simp [declaredKeysOf]
  | cons pi rest ih =>
    cases pi with
    | mk rawPath item? =>
      simp only [List.map_cons, List.nodup_cons] at h
      cases item? with
      | none => exact ih h.2
      | some item =>
        refine List.Nodup.append ?_ (ih h.2) ?_
        · have hmap : item.Operations.map (fun mo => (⟨mo.1, rawPath⟩ : RouteKey)) =
              (item.Operations.map Prod.fst).map (fun m => (⟨m, rawPath⟩ : RouteKey)) := by
            simp [List.map_map]
          rw [hmap]
          exact (Operations_fst_nodup item).map
            (fun a b hab => by simpa using (RouteKey.mk.injEq ..).mp hab |>.1)
        · intro k hk₁ hk₂
          rcases List.mem_map.mp hk₁ with ⟨mo, _, rfl⟩
          exact h.1 (by simpa using mem_declaredKeysOf_path hk₂)

theorem mem_declaredKeysOf_method {ps : List (String × Option pathItem)}
    {k : RouteKey} (h : k ∈ declaredKeysOf ps) :
    k.Method ∈ ["GET", "POST", "PUT", "DELETE", "PATCH", "OPTIONS", "HEAD"] := by
  induction ps with
  | nil => cases h
  | cons pi rest ih =>
    cases pi with
    | mk rawPath item? =>
      cases item? with
      | none => exact ih h
      | some item =>
        rcases List.mem_append.mp h with hmem | hmem
        · rcases List.mem_map.mp hmem with ⟨mo, hmo, rfl⟩
          exact (Operations_fst_sublist item).subset
            (List.mem_map.mpr ⟨mo, hmo, rfl⟩)
        · exact ih hmem

/-! ### Serializer lemmas -/

theorem lookupKey_eq_some_iff {l : List (RouteKey × AuthPolicy)}
    (hnd : (l.map Prod.fst).Nodup) {k : RouteKey} {v : AuthPolicy} :
    lookupKey k l = some v ↔ (k, v) ∈ l := by
  induction l with
  | nil => simp [lookupKey]
  | cons kv rest ih =>
    cases kv with
    | mk k' v' =>
      simp only [List.map_cons, List.nodup_cons] at hnd
      by_cases hk : k' = k
      · subst hk
        simp only [lookupKey, if_pos rfl, List.mem_cons]
        constructor
        · intro h
          cases h
          exact Or.inl rfl
        · intro h
          rcases h with heq | hmem
          · cases heq
            rfl
          · exact absurd (List.mem_map.mpr ⟨_, hmem, rfl⟩) hnd.1
      · simp only [lookupKey, if_neg hk, ih hnd.2, List.mem_cons]
        constructor
        · exact Or.inr
        · intro h
          rcases h with heq | hmem
          · cases heq
            exact absurd rfl hk
          · exact hmem

theorem lookupKey_eq_none_iff {l : List (RouteKey × AuthPolicy)} {k : RouteKey} :
    lookupKey k l = none ↔ k ∉ l.map Prod.fst := by
  induction l with
  | nil => simp [lookupKey]
  | cons kv rest ih =>
    cases kv with
    | mk k' v' =>
      by_cases hk : k' = k
      · simp [lookupKey, hk]
      · simp [lookupKey, hk, ih, Ne.symm hk]

theorem lookupKey_perm {l₁ l₂ : List (RouteKey × AuthPolicy)} (hp : l₁.Perm l₂)
    (hnd : (l₁.map Prod.fst).Nodup) (k : RouteKey) :
    lookupKey k l₁ = lookupKey k l₂ := by
  have hnd₂ : (l₂.map Prod.fst).Nodup := ((hp.map Prod.fst).nodup_iff).mp hnd
  cases h : lookupKey k l₁ with
  | some v =>
    exact ((lookupKey_eq_some_iff hnd₂).mpr
      (hp.mem_iff.mp ((lookupKey_eq_some_iff hnd).mp h))).symm
  | none =>
    symm
    rw [lookupKey_eq_none_iff] at h ⊢
    intro hk
    exact h (((hp.map Prod.fst).mem_iff).mpr hk)

theorem sortedKeys_perm_keys (ps : List (RouteKey × AuthPolicy)) :
    (sortedKeys ps).Perm (ps.map Prod.fst) :=
  List.perm_insertionSort keyLE (ps.map Prod.fst)

theorem sortedKeys_sorted (ps : List (RouteKey × AuthPolicy)) :
    List.Sorted keyLE (sortedKeys ps) :=
  List.sorted_insertionSort keyLE (ps.map Prod.fst)

theorem sortedKeys_eq_of_perm {l₁ l₂ : List (RouteKey × AuthPolicy)}
    (hp : l₁.Perm l₂) : sortedKeys l₁ = sortedKeys l₂ :=
  List.eq_of_perm_of_sorted
    ((sortedKeys_perm_keys l₁).trans
      ((hp.map Prod.fst).trans (sortedKeys_perm_keys l₂).symm))
    (sortedKeys_sorted l₁) (sortedKeys_sorted l₂)

theorem Generate_eq_of_perm (pkg : String) {l₁ l₂ : List (RouteKey × AuthPolicy)}
    (hp : l₁.Perm l₂) (hnd : (l₁.map Prod.fst).Nodup) :
    Generate pkg ⟨l₁⟩ = Generate pkg ⟨l₂⟩ := by
  have hf : (fun k => renderEntry k ((lookupKey k l₁).getD publicPolicy)) =
      (fun k => renderEntry k ((lookupKey k l₂).getD publicPolicy)) :=
    funext fun k => by rw [lookupKey_perm hp hnd k]
  unfold Generate
  rw [show (⟨l₁⟩ : Config).Policies = l₁ from rfl,
    show (⟨l₂⟩ : Config).Policies = l₂ from rfl,
    sortedKeys_eq_of_perm hp, hf]

/-! ### Noninterference of non-bearer token lists

Two documents agree up to non-bearer token lists when they have the same
structure, the same scheme names in the same positions, and equal token
lists wherever the scheme name is `BearerAuth`; token lists of other
schemes may differ arbitrarily. -/

/-- Lift a relation to `Option`, requiring the same constructor. -/
def optAgree (R : α → α → Prop) : Option α → Option α → Prop
  | none, none => True
  | some a, some b => R a b
  | _, _ => False

/-- One scheme entry: same name, same tokens when the name is `BearerAuth`. -/
def tokensAgree (a b : String × List String) : Prop :=
  a.1 = b.1 ∧ (a.1 = "BearerAuth" → a.2 = b.2)

/-- One security requirement object, entrywise. -/
def reqAgree (r₁ r₂ : securityRequirement) : Prop :=
  List.Forall₂ tokensAgree r₁ r₂

/-- Optional security requirement lists, entrywise. -/
def secAgree (s₁ s₂ : Option (List securityRequirement)) : Prop :=
  optAgree (List.Forall₂ reqAgree) s₁ s₂

/-- Operations agree when their security lists do. -/
def opAgree (o₁ o₂ : operation) : Prop :=
  secAgree o₁.Security o₂.Security

/-- Path items agree slotwise. -/
def itemAgree (p₁ p₂ : pathItem) : Prop :=
  optAgree opAgree p₁.Get p₂.Get ∧ optAgree opAgree p₁.Post p₂.Post ∧
  optAgree opAgree p₁.Put p₂.Put ∧ optAgree opAgree p₁.Delete p₂.Delete ∧
  optAgree opAgree p₁.Patch p₂.Patch ∧ optAgree opAgree p₁.Options p₂.Options ∧
  optAgree opAgree p₁.Head p₂.Head

/-- One path entry: same path name, agreeing path items. -/
def pathsEntryAgree (a b : String × Option pathItem) : Prop :=
  a.1 = b.1 ∧ optAgree itemAgree a.2 b.2

/-- Whole documents: agreeing global security and agreeing path lists. -/
def rootAgree (r₁ r₂ : openapiRoot) : Prop :=
  secAgree r₁.Security r₂.Security ∧
  List.Forall₂ pathsEntryAgree r₁.Paths r₂.Paths

theorem lookupScheme_agree {r₁ r₂ : securityRequirement} (h : reqAgree r₁ r₂) :
    lookupScheme "BearerAuth" r₁ = lookupScheme "BearerAuth" r₂ := by
  induction h with
  | nil => rfl
  | @cons a b t₁ t₂ h₁ h₂ ih =>
    obtain ⟨n₁, toks₁⟩ := a
    obtain ⟨n₂, toks₂⟩ := b
    obtain ⟨hn, ht⟩ := h₁
    simp only at hn ht
    subst hn
    by_cases hb : n₁ = "BearerAuth"
    · simp [lookupScheme, hb, ht hb]
    · simp [lookupScheme, hb, ih]

theorem findBearer_agree {l₁ l₂ : List securityRequirement}
    (h : List.Forall₂ reqAgree l₁ l₂) : findBearer l₁ = findBearer l₂ := by
  induction h with
  | nil => rfl
  | @cons a b t₁ t₂ h₁ h₂ ih =>
    unfold findBearer
    rw [lookupScheme_agree h₁, ih]

theorem effectiveSec_agree {root₁ root₂ : openapiRoot} {op₁ op₂ : operation}
    (hroot : secAgree root₁.Security root₂.Security) (hop : opAgree op₁ op₂) :
    secAgree (effectiveSec root₁ op₁) (effectiveSec root₂ op₂) := by
  unfold effectiveSec
  unfold opAgree at hop
  cases h₁ : op₁.Security with
  | some s₁ =>
    cases h₂ : op₂.Security with
    | some s₂ =>
      rw [h₁, h₂] at hop
      exact hop
    | none =>
      rw [h₁, h₂] at hop
      exact hop.elim
  | none =>
    cases h₂ : op₂.Security with
    | some s₂ =>
      rw [h₁, h₂] at hop
      exact hop.elim
    | none => exact hroot

theorem derivePolicy_agree {root₁ root₂ : openapiRoot} {op₁ op₂ : operation}
    (hroot : secAgree root₁.Security root₂.Security) (hop : opAgree op₁ op₂) :
    derivePolicy root₁ op₁ = derivePolicy root₂ op₂ := by
  have heff := effectiveSec_agree hroot hop
  unfold derivePolicy
  cases e₁ : effectiveSec root₁ op₁ with
  | none =>
    cases e₂ : effectiveSec root₂ op₂ with
    | none => rfl
    | some s₂ =>
      rw [e₁, e₂] at heff
      exact heff.elim
  | some s₁ =>
    cases e₂ : effectiveSec root₂ op₂ with
    | none =>
      rw [e₁, e₂] at heff
      exact heff.elim
    | some s₂ =>
      rw [e₁, e₂] at heff
      cases heff with
      | nil => rfl
      | @cons a b t₁ t₂ h₁ h₂ =>
        have hfb : findBearer (a :: t₁) = findBearer (b :: t₂) :=
          findBearer_agree (List.Forall₂.cons h₁ h₂)
        simp only [hfb]

theorem slot_agree {o₁ o₂ : Option operation}
    (h : optAgree opAgree o₁ o₂) (m : String) :
    List.Forall₂ (fun a b => a.1 = b.1 ∧ opAgree a.2 b.2)
      (match o₁ with | some x => [(m, x)] | none => [])
      (match o₂ with | some x => [(m, x)] | none => []) := by
  cases o₁ <;> cases o₂
  · exact List.Forall₂.nil
  · exact h.elim
  · exact h.elim
  · exact List.Forall₂.cons ⟨rfl, h⟩ List.Forall₂.nil

theorem Operations_agree {p₁ p₂ : pathItem} (h : itemAgree p₁ p₂) :
    List.Forall₂ (fun a b => a.1 = b.1 ∧ opAgree a.2 b.2)
      p₁.Operations p₂.Operations := by
  obtain ⟨h₁, h₂, h₃, h₄, h₅, h₆, h₇⟩ := h
  unfold pathItem.Operations
  exact List.rel_append (List.rel_append (List.rel_append (List.rel_append
    (List.rel_append (List.rel_append (slot_agree h₁ "GET") (slot_agree h₂ "POST"))
      (slot_agree h₃ "PUT")) (slot_agree h₄ "DELETE")) (slot_agree h₅ "PATCH"))
    (slot_agree h₆ "OPTIONS")) (slot_agree h₇ "HEAD")

theorem parseOps_agree {root₁ root₂ : openapiRoot}
    (hroot : secAgree root₁.Security root₂.Security) (rawPath : String)
    {ops₁ ops₂ : List (String × operation)}
    (h : List.Forall₂ (fun a b => a.1 = b.1 ∧ opAgree a.2 b.2) ops₁ ops₂) :
    parseOps root₁ rawPath ops₁ = parseOps root₂ rawPath ops₂ := by
  induction h with
  | nil => rfl
  | @cons a b t₁ t₂ h₁ h₂ ih =>
    obtain ⟨m₁, o₁⟩ := a
    obtain ⟨m₂, o₂⟩ := b
    obtain ⟨hm, hagree⟩ := h₁
    simp only at hm hagree
    subst hm
    unfold parseOps
    rw [derivePolicy_agree hroot hagree, ih]

theorem parsePaths_agree {root₁ root₂ : openapiRoot}
    (hroot : secAgree root₁.Security root₂.Security)
    {ps₁ ps₂ : List (String × Option pathItem)}
    (h : List.Forall₂ pathsEntryAgree ps₁ ps₂) :
    parsePaths root₁ ps₁ = parsePaths root₂ ps₂ := by
  induction h with
  | nil => rfl
  | @cons a b t₁ t₂ h₁ h₂ ih =>
    obtain ⟨p₁, i₁⟩ := a
    obtain ⟨p₂, i₂⟩ := b
    obtain ⟨hp, hagree⟩ := h₁
    simp only at hp hagree
    subst hp
    cases i₁ with
    | none =>
      cases i₂ with
      | none => exact ih
      | some item₂ => exact hagree.elim
    | some item₁ =>
      cases i₂ with
      | none => exact hagree.elim
      | some item₂ =>
        unfold parsePaths
        rw [parseOps_agree hroot p₁ (Operations_agree hagree), ih]

theorem ParseConfig_agree {root₁ root₂ : openapiRoot} (h : rootAgree root₁ root₂) :
    ParseConfig root₁ = ParseConfig root₂ := by
  unfold ParseConfig
  rw [parsePaths_agree h.1 h.2]

/-! ### Concrete fixtures used by the witnesses -/

/-- An operation with an explicit empty `security: []`. -/
def opEmptySec : operation := ⟨some []⟩

/-- An operation with no `security` key at all. -/
def opNoSec : operation := ⟨none⟩

/-- An operation secured by a bearer requirement with one role and one scope
token. -/
def opBearerFull : operation :=
  ⟨some [[("BearerAuth", ["role:admin", "vegetable:write"])]]⟩

/-- An operation whose only security scheme is a non-bearer one. -/
def opApiKeyOnly : operation := ⟨some [[("ApiKey", ["x"])]]⟩

/-- A path item with only a GET carrying the non-bearer scheme. -/
def itemApiKeyGet : pathItem := ⟨some opApiKeyOnly, none, none, none, none, none, none⟩

def rootC1 : openapiRoot := ⟨none, [("/x", some itemApiKeyGet)]⟩

def rootC2 : openapiRoot := ⟨some [[("BearerAuth", ["role:admin"])]], []⟩

def opC4 : operation :=
  ⟨some [[("ApiKey", ["k"])],
         [("SigV4", ["s"]), ("BearerAuth", ["role:admin"])],
         [("BearerAuth", ["role:other"])]]⟩

def rootC4 : openapiRoot := ⟨none, []⟩

def itemC5 : pathItem := ⟨some opNoSec, none, none, none, none, none, none⟩

def rootC5 : openapiRoot := ⟨none, [("/pub", some itemC5)]⟩

def cfgC5 : Config := ⟨[(⟨"GET", "/pub"⟩, publicPolicy)]⟩

def itemC6 : pathItem := ⟨some opNoSec, some opBearerFull, none, none, none, none, none⟩

def rootC6 : openapiRoot := ⟨none, [("/a", some itemC6), ("/b", none)]⟩

def cfgC6 : Config :=
  ⟨[(⟨"GET", "/a"⟩, publicPolicy),
    (⟨"POST", "/a"⟩, ⟨true, ["admin"], ["vegetable:write"]⟩)]⟩

def rootC7 : openapiRoot := ⟨none, [("/y", some itemApiKeyGet)]⟩

def listC8a : List (RouteKey × AuthPolicy) :=
  [(⟨"POST", "/b"⟩, ⟨true, ["admin"], []⟩), (⟨"GET", "/a"⟩, publicPolicy)]

def listC8b : List (RouteKey × AuthPolicy) :=
  [(⟨"GET", "/a"⟩, publicPolicy), (⟨"POST", "/b"⟩, ⟨true, ["admin"], []⟩)]

def opC10a : operation := ⟨some [[("ApiKey", ["a1"]), ("BearerAuth", ["role:admin"])]]⟩

def opC10b : operation := ⟨some [[("ApiKey", ["b2", "b3"]), ("BearerAuth", ["role:admin"])]]⟩

def rootC10a : openapiRoot :=
  ⟨none, [("/x", some ⟨some opC10a, none, none, none, none, none, none⟩)]⟩

def rootC10b : openapiRoot :=
  ⟨none, [("/x", some ⟨some opC10b, none, none, none, none, none, none⟩)]⟩

/-! ### Claims -/

/-- C1: when the effective security requirement list is non-empty but no
requirement object names the `BearerAuth` scheme, `derivePolicy` fails with
the misconfiguration error rather than falling back to a public policy, and
`ParseConfig` propagates such a failure as an error annotated with the
method and path of an offending operation. -/
theorem C1_missing_bearer_is_error (root : openapiRoot) (op : operation)
    (sec : List securityRequirement) (hsec : effectiveSec root op = some sec)
    (hne : sec ≠ []) (hnb : ∀ req ∈ sec, ∀ pr ∈ req, pr.1 ≠ "BearerAuth") :
    derivePolicy root op = .error noBearerMsg ∧
    (∀ method path, opAt root method path op →
      ∃ m p e, ParseConfig root = .error (deriveErrMsg m p e) ∧
        ∃ op', opAt root m p op' ∧ derivePolicy root op' = .error e) := by
  have herr : derivePolicy root op = .error noBearerMsg := by
    cases sec with
    | nil => exact absurd rfl hne
    | cons req rest =>
      rw [derivePolicy_cons hsec, (findBearer_eq_none_iff (req :: rest)).mpr hnb]
  refine ⟨herr, ?_⟩
  rintro method path ⟨item, hpmem, hopmem⟩
  rcases parsePaths_cases root root.Paths with ⟨l, hl⟩ |
    ⟨p, item', m, op', e, hp, hop, herr', hrun⟩
  · rcases parsePaths_ok_of_opAt hl hpmem hopmem with ⟨pol, hpol, _⟩
    rw [herr] at hpol
    cases hpol
  · refine ⟨m, p, e, ?_, op', ⟨item', hp, hop⟩, herr'⟩
    unfold ParseConfig
    rw [hrun]

theorem C1_witness : derivePolicy rootC1 opApiKeyOnly = .error noBearerMsg :=
  (C1_missing_bearer_is_error rootC1 opApiKeyOnly [[("ApiKey", ["x"])]]
    rfl (by decide) (by decide)).1

/-- C2: the effective security list is the operation-level one whenever
present (even empty), else the root-level one; a present-but-empty or absent
effective list resolves to the public policy (`requireAuth = false`, empty
roles and scopes); in particular `security: []` on the operation resolves to
public regardless of the root security list. -/
theorem C2_effective_security (root : openapiRoot) (op : operation) :
    (∀ s, op.Security = some s → effectiveSec root op = some s) ∧
    (op.Security = none → effectiveSec root op = root.Security) ∧
    (effectiveSec root op = some [] → derivePolicy root op = .ok ⟨false, [], []⟩) ∧
    (effectiveSec root op = none → derivePolicy root op = .ok ⟨false, [], []⟩) ∧
    (op.Security = some [] → derivePolicy root op = .ok ⟨false, [], []⟩) := by
  refine ⟨?_, ?_, ?_, ?_, ?_⟩
  · intro s hs
    unfold effectiveSec
    rw [hs]
  · intro hs
    unfold effectiveSec
    rw [hs]
  · intro hs
    unfold derivePolicy
    rw [hs]
    rfl
  · intro hs
    unfold derivePolicy
    rw [hs]
    rfl
  · intro hs
    unfold derivePolicy effectiveSec
    rw [hs]
    rfl

theorem C2_witness : derivePolicy rootC2 opEmptySec = .ok ⟨false, [], []⟩ :=
  (C2_effective_security rootC2 opEmptySec).2.2.2.2 rfl

/-- C3: token classification is an order- and multiplicity-preserving split
of the matched token list — role-prefixed tokens go (stripped) to roles,
every other token goes verbatim to scopes; in particular
`["role:admin", "vegetable:write"]` yields roles `["admin"]` and scopes
`["vegetable:write"]`. -/
theorem C3_token_classification :
    (∀ toks : List String,
      classifyTokens toks =
        (toks.filterMap (fun t => if isRoleToken t then some (t.drop 5) else none),
         toks.filter (fun t => ! isRoleToken t))) ∧
    classifyTokens ["role:admin", "vegetable:write"] =
      (["admin"], ["vegetable:write"]) := by
  exact ⟨classifyTokens_eq, by decide⟩

/-- C4: requirement objects are scanned in document order and the first
occurrence of `BearerAuth` fixes the policy — `requireAuth = true` with the
roles and scopes classified from that occurrence's token list — while any
later requirement objects (including ones containing `BearerAuth`) cannot
affect the result. -/
theorem C4_first_bearer_wins (root : openapiRoot) (op : operation)
    (pre post : List securityRequirement)
    (rpre rpost : List (String × List String)) (toks : List String)
    (hsec : effectiveSec root op =
      some (pre ++ (rpre ++ ("BearerAuth", toks) :: rpost) :: post))
    (hpre : ∀ r ∈ pre, ∀ pr ∈ r, pr.1 ≠ "BearerAuth")
    (hrpre : ∀ pr ∈ rpre, pr.1 ≠ "BearerAuth") :
    derivePolicy root op =
      .ok ⟨true, (classifyTokens toks).1, (classifyTokens toks).2⟩ := by
  have hfb : findBearer (pre ++ (rpre ++ ("BearerAuth", toks) :: rpost) :: post) =
      some toks := by
    rw [findBearer_append_none
      (fun r hr => (lookupScheme_eq_none_iff "BearerAuth" r).mpr (hpre r hr))]
    unfold findBearer
    rw [lookupScheme_first "BearerAuth" toks rpre rpost hrpre]
  cases pre with
  | nil =>
    rw [List.nil_append] at hsec hfb
    rw [derivePolicy_cons hsec, hfb]
  | cons a l =>
    rw [List.cons_append] at hsec hfb
    rw [derivePolicy_cons hsec, hfb]

theorem C4_witness :
    derivePolicy rootC4 opC4 =
      .ok ⟨true, (classifyTokens ["role:admin"]).1, (classifyTokens ["role:admin"]).2⟩ :=
  C4_first_bearer_wins rootC4 opC4 [[("ApiKey", ["k"])]]
    [[("BearerAuth", ["role:other"])]] [("SigV4", ["s"])] [] ["role:admin"]
    rfl (by decide) (by decide)

/-- C5: in any `Config` produced by a successful `ParseConfig` run, a policy
with `requireAuth = false` has empty roles and scopes. -/
theorem C5_public_invariant (root : openapiRoot) (cfg : Config)
    (h : ParseConfig root = .ok cfg) (k : RouteKey) (pol : AuthPolicy)
    (hm : (k, pol) ∈ cfg.Policies) (hf : pol.RequireAuth = false) :
    pol.Roles = [] ∧ pol.Scopes = [] := by
  unfold ParseConfig at h
  split at h
  · cases h
  · cases h
    rcases parsePaths_mem_policy (by assumption) hm with ⟨op, hop⟩
    exact derivePolicy_public_of_not_required hop hf

theorem C5_witness : publicPolicy.Roles = [] ∧ publicPolicy.Scopes = [] :=
  C5_public_invariant rootC5 cfgC5 rfl ⟨"GET", "/pub"⟩ publicPolicy
    (by simp [cfgC5]) rfl

/-- C6: on success, the resolved mapping's keys are exactly the declared
operations — one `(uppercase method, path)` key per non-nil operation under
the seven consulted methods — each exactly once and nothing else. -/
theorem C6_declared_keys (root : openapiRoot) (cfg : Config)
    (h : ParseConfig root = .ok cfg) (hnd : (root.Paths.map Prod.fst).Nodup) :
    cfg.Policies.map Prod.fst = declaredKeys root ∧
    (declaredKeys root).Nodup ∧
    (∀ k ∈ declaredKeys root,
      k.Method ∈ ["GET", "POST", "PUT", "DELETE", "PATCH", "OPTIONS", "HEAD"]) := by
  unfold ParseConfig at h
  split at h
  · cases h
  · cases h
    exact ⟨parsePaths_ok_keys (by assumption),
      declaredKeysOf_nodup hnd,
      fun k hk => mem_declaredKeysOf_method hk⟩

theorem C6_witness : cfgC6.Policies.map Prod.fst = declaredKeys rootC6 :=
  (C6_declared_keys rootC6 cfgC6 rfl (by decide)).1

/-- C7: `ParseConfig` is atomic — it either succeeds with a `Config` covering
every declared operation, or fails with an error; and a resolution failure on
any single declared operation makes the whole run fail. -/
theorem C7_atomicity (root : openapiRoot) :
    ((∃ cfg, ParseConfig root = .ok cfg ∧
        ∀ method path op, opAt root method path op →
          ∃ pol, derivePolicy root op = .ok pol ∧
            ((⟨method, path⟩ : RouteKey), pol) ∈ cfg.Policies) ∨
      (∃ e, ParseConfig root = .error e)) ∧
    (∀ method path op e, opAt root method path op →
      derivePolicy root op = .error e → ∃ e', ParseConfig root = .error e') := by
  constructor
  · rcases parsePaths_cases root root.Paths with ⟨l, hl⟩ |
      ⟨p, item, m, op, e, hp, hop, herr, hrun⟩
    · refine Or.inl ⟨⟨l⟩, ?_, ?_⟩
      · unfold ParseConfig
        rw [hl]
      · rintro method path op ⟨item, hpmem, hopmem⟩
        exact parsePaths_ok_of_opAt hl hpmem hopmem
    · refine Or.inr ⟨deriveErrMsg m p e, ?_⟩
      unfold ParseConfig
      rw [hrun]
  · rintro method path op e ⟨item, hpmem, hopmem⟩ herr
    rcases parsePaths_cases root root.Paths with ⟨l, hl⟩ |
      ⟨p, item', m, op', e', hp, hop, herr', hrun⟩
    · rcases parsePaths_ok_of_opAt hl hpmem hopmem with ⟨pol, hpol, _⟩
      rw [herr] at hpol
      cases hpol
    · refine ⟨deriveErrMsg m p e', ?_⟩
      unfold ParseConfig
      rw [hrun]

theorem C7_witness : ∃ e', ParseConfig rootC7 = .error e' :=
  (C7_atomicity rootC7).2 "GET" "/y" opApiKeyOnly noBearerMsg
    ⟨itemApiKeyGet, by simp [rootC7], by decide⟩ rfl

/-- C8: the serializer is deterministic — permuting the input mapping's
entries (its iteration order) does not change the emitted bytes, and the
emitted entries follow the total (method, then path) lexicographic order
over `RouteKey`. -/
theorem C8_serializer_deterministic (pkg : String)
    (l₁ l₂ : List (RouteKey × AuthPolicy)) (hp : l₁.Perm l₂)
    (hnd : (l₁.map Prod.fst).Nodup) :
    Generate pkg ⟨l₁⟩ = Generate pkg ⟨l₂⟩ ∧
    List.Sorted keyLE (sortedKeys l₁) ∧
    (sortedKeys l₁).Perm (l₁.map Prod.fst) :=
  ⟨Generate_eq_of_perm pkg hp hnd, sortedKeys_sorted l₁, sortedKeys_perm_keys l₁⟩

theorem C8_witness : Generate "pkg" ⟨listC8a⟩ = Generate "pkg" ⟨listC8b⟩ :=
  (C8_serializer_deterministic "pkg" listC8a listC8b
    (by unfold listC8a listC8b
        exact List.Perm.swap ((⟨"GET", "/a"⟩ : RouteKey), publicPolicy)
          ((⟨"POST", "/b"⟩ : RouteKey), (⟨true, ["admin"], []⟩ : AuthPolicy)) [])
    (by decide)).1

/-- C9: role classification requires strictly more than the prefix — a token
goes to roles only when longer than 5 characters and starting with `role:`;
the bare token `role:` (and any token of at most 5 characters, or without the
prefix) goes verbatim to scopes. -/
theorem C9_role_prefix_strict :
    (∀ s : String, 5 < s.length → s.take 5 = "role:" →
      classifyTokens [s] = ([s.drop 5], [])) ∧
    (∀ s : String, s.length ≤ 5 → classifyTokens [s] = ([], [s])) ∧
    (∀ s : String, s.take 5 ≠ "role:" → classifyTokens [s] = ([], [s])) ∧
    classifyTokens ["role:"] = ([], ["role:"]) := by
  refine ⟨?_, ?_, ?_, by decide⟩
  · intro s h₁ h₂
    simp [classifyTokens, isRoleToken, h₁, h₂]
  · intro s h
    simp [classifyTokens, isRoleToken, Nat.not_lt.mpr h]
  · intro s h
    simp [classifyTokens, isRoleToken, h]

theorem C9_witness : classifyTokens ["role:admin"] = ([("role:admin").drop 5], []) :=
  C9_role_prefix_strict.1 "role:admin" (by decide) (by decide)

/-- C10: noninterference of non-bearer token lists — two documents with the
same structure and scheme names that differ only in token lists attached to
schemes other than `BearerAuth` produce identical `ParseConfig` results. -/
theorem C10_noninterference (root₁ root₂ : openapiRoot)
    (h : rootAgree root₁ root₂) : ParseConfig root₁ = ParseConfig root₂ :=
  ParseConfig_agree h

theorem C10_witness : ParseConfig rootC10a = ParseConfig rootC10b := by
  refine C10_noninterference rootC10a rootC10b ⟨trivial, ?_⟩
  refine List.Forall₂.cons ⟨rfl, ?_⟩ List.Forall₂.nil
  refine ⟨?_, trivial, trivial, trivial, trivial, trivial, trivial⟩
  exact List.Forall₂.cons
    (List.Forall₂.cons ⟨rfl, fun hfalse => absurd hfalse (by decide)⟩
      (List.Forall₂.cons ⟨rfl, fun _ => rfl⟩ List.Forall₂.nil))
    List.Forall₂.nil

end OpenapiAuthz
